import Mathlib

/-
Verification development for the `aoc` Go helper library (bradfitz/aoc,
single file `aoc.go`).  The Go source is shallowly embedded: pure functions
become Lean functions over unbounded `Int` (the source is generic over
`constraints.Signed`; the unbounded integers model the signed parameter),
strings become `List Char` at the rune level, the process-wide mutable
state of `Main`/`Input` becomes explicit state passing, and fatal
conditions (`log.Fatalf`, `os.Exit(1)`, panics) become `Except.error`.
-/

namespace Aoc

/-- Point model. Go: `type Pt2[T constraints.Signed] struct { X, Y T }`,
with `type Pt = Pt2[int]`. -/
structure Pt2 where
  X : Int
  Y : Int
deriving DecidableEq

/-- Go: `type Pt = Pt2[int]`. -/
abbrev Pt := Pt2

/-- Go: `type Pt3[T constraints.Signed] struct { X, Y, Z T }` (no operations). -/
structure Pt3 where
  X : Int
  Y : Int
  Z : Int
deriving DecidableEq

/-- Two's-complement wraparound of a 64-bit signed integer: the unique
representative of n modulo 2^64 lying in [-2^63, 2^63).  Every Go
`constraints.Signed` instantiation (int, int64, ...) wraps; 64 bits is the
widest, and the counterexamples scale to any width. -/
def wrap64 (n : Int) : Int :=
  (n + 2 ^ 63) % 2 ^ 64 - 2 ^ 63

/-- Go `AbsInt(x, y)`: `v := x - y; if v < 0 { v = -v }; return v`, with
int64 wraparound subtraction and negation (so `AbsInt(minInt64, 0)` is
`minInt64` again, still negative). -/
def AbsInt (x y : Int) : Int :=
  let v := wrap64 (x - y)
  if v < 0 then wrap64 (-v) else v

/-- Go `(a Pt2[T]) MDist(b)`: `AbsInt(a.X, b.X) + AbsInt(a.Y, b.Y)`, the
addition again wrapping at 64 bits. -/
def MDist (a b : Pt) : Int :=
  wrap64 (AbsInt a.X b.X + AbsInt a.Y b.Y)

/-- Go `(p Pt2[T]) Toward(b)`: copy p, then decrement/increment each axis
by one when b's coordinate is below/above p's. -/
def Toward (p b : Pt) : Pt :=
  { X := if b.X < p.X then p.X - 1 else if b.X > p.X then p.X + 1 else p.X
    Y := if b.Y < p.Y then p.Y - 1 else if b.Y > p.Y then p.Y + 1 else p.Y }

/-- The offsets visited by Go `ForNeighbors`, in loop order:
`for y := -1..1 { for x := -1..1 { if x == 0 && y == 0 continue ... } }`
(row-major within the 3x3 block, center skipped). -/
def neighborOffsets : List (Int × Int) :=
  [(-1, -1), (0, -1), (1, -1), (-1, 0), (1, 0), (-1, 1), (0, 1), (1, 1)]

/-- The points `Pt2{p.X + x, p.Y + y}` passed to the visitor, in loop order. -/
def neighborList (p : Pt) : List Pt :=
  neighborOffsets.map (fun o => { X := p.X + o.1, Y := p.Y + o.2 })

/-- Early-stopping visit: runs down the candidate list, recording each point
the visitor is invoked on, and stops after the first `false` (Go's
`if !f(...) { return }`). -/
def visitRun : List Pt → (Pt → Bool) → List Pt
  | [], _ => []
  | q :: qs, f => if f q then q :: visitRun qs f else [q]

/-- Go `(p Pt2[T]) ForNeighbors(f)`: the sequence of points the visitor is
invoked on (the nested loops unrolled into `neighborList`). -/
def ForNeighbors (p : Pt) (f : Pt → Bool) : List Pt :=
  visitRun (neighborList p) f

/-- The code points Go `unicode.IsSpace` accepts: tab, newline, vertical
tab, form feed, carriage return, space (the Latin-1 fast path values 0x85
and 0xA0), and the Unicode White_Space table entries above 0xFF, with the
contiguous range 0x2000-0x200A enumerated. -/
def goSpaceVals : List Nat :=
  [9, 10, 11, 12, 13, 32, 0x85, 0xA0, 0x1680, 0x2000, 0x2001, 0x2002, 0x2003, 0x2004,
   0x2005, 0x2006, 0x2007, 0x2008, 0x2009, 0x200A, 0x2028, 0x2029, 0x202F, 0x205F, 0x3000]

/-- Go `unicode.IsSpace`. -/
def goIsSpace (c : Char) : Bool := goSpaceVals.contains c.toNat

/-- Number of bytes in the UTF-8 encoding of a rune: Go's
`for x, r := range line` advances the byte index `x` by this amount per
rune (the model's texts are rune sequences, i.e. valid UTF-8). -/
def utf8Len (c : Char) : Nat :=
  if c.toNat < 0x80 then 1
  else if c.toNat < 0x800 then 2
  else if c.toNat < 0x10000 then 3
  else 4

/-- Byte offset of the character at index k of a line: the sum of the UTF-8
widths of the characters before it. -/
def utf8Off : List Char → Nat → Nat
  | _, 0 => 0
  | [], _ + 1 => 0
  | c :: t, k + 1 => utf8Len c + utf8Off t k

/-- Go `strings.Split(s, "\n")` at the rune level (empty input gives one
empty line; a trailing newline gives a trailing empty line). -/
def splitNL : List Char → List (List Char)
  | [] => [[]]
  | c :: t =>
    if c = '\n' then [] :: splitNL t
    else
      match splitNL t with
      | [] => [[c]]
      | l :: ls => (c :: l) :: ls

/-- Go `type Grid map[Pt]rune`, as an entry list with map (replace-on-insert)
semantics; `GridFromString` never repeats a key, so entries stay in insertion
order. -/
abbrev Grid := List (Pt × Char)

/-- Map insert: replace the entry for the key if present, else append. -/
def gridInsert : Grid → Pt → Char → Grid
  | [], p, r => [(p, r)]
  | (q, v) :: t, p, r => if q = p then (p, r) :: t else (q, v) :: gridInsert t p r

/-- Map lookup `g[p]`. -/
def gridLookup : Grid → Pt → Option Char
  | [], _ => none
  | (q, v) :: t, p => if q = p then some v else gridLookup t p

/-- Inner loop of `GridFromString`: `for x, r := range line { if
unicode.IsSpace(r) { continue }; g[Pt{x, y}] = r }`, with `x` the running
BYTE offset starting at `x0` (Go's range over a string yields the byte
offset of each rune, advancing by the rune's UTF-8 width). -/
def gridAddLine : Grid → Int → Nat → List Char → Grid
  | g, _, _, [] => g
  | g, y, x0, r :: t =>
    gridAddLine (if goIsSpace r then g else gridInsert g ⟨(x0 : Int), y⟩ r) y
      (x0 + utf8Len r) t

/-- Outer loop of `GridFromString`: `for y, line := range strings.Split(s, "\n")`. -/
def gridAddRows : Grid → Nat → List (List Char) → Grid
  | g, _, [] => g
  | g, y0, line :: t => gridAddRows (gridAddLine g (y0 : Int) 0 line) (y0 + 1) t

/-- Go `GridFromString(s)`. -/
def GridFromString (s : List Char) : Grid :=
  gridAddRows [] 0 (splitNL s)

/-- Loop body of Go `(g Grid) Bounds()`: on the first entry all four bounds
are initialized to that point, after which each entry widens them. -/
def boundsLoop : Grid → Nat → Int → Int → Int → Int → Int × Int × Int × Int
  | [], _, minX, minY, maxX, maxY => (minX, minY, maxX, maxY)
  | (p, _) :: t, n, minX, minY, maxX, maxY =>
    let minX' := if n = 0 then p.X else minX
    let maxX' := if n = 0 then p.X else maxX
    let minY' := if n = 0 then p.Y else minY
    let maxY' := if n = 0 then p.Y else maxY
    boundsLoop t (n + 1) (min minX' p.X) (min minY' p.Y) (max maxX' p.X) (max maxY' p.Y)

/-- Go `(g Grid) Bounds()` returning `(minX, minY, maxX, maxY)`; the named
return values start at their zero values, so an empty grid yields zeros. -/
def Bounds (g : Grid) : Int × Int × Int × Int :=
  boundsLoop g 0 0 0 0 0

/-- Specification helper: the non-whitespace character a line contributes at
byte-offset column `x`, when the line's first character sits at byte offset
`x0`. -/
def lineCharFrom : List Char → Nat → Int → Option Char
  | [], _, _ => none
  | r :: t, x0, x =>
    if x = (x0 : Int) then (if goIsSpace r then none else some r)
    else lineCharFrom t (x0 + utf8Len r) x

/-- Specification helper: the character the rows contribute at point `q`,
when the rows are indexed from `y0`. -/
def rowCharFrom : List (List Char) → Nat → Pt → Option Char
  | [], _, _ => none
  | line :: t, y0, q =>
    if q.Y = (y0 : Int) then lineCharFrom line 0 q.X else rowCharFrom t (y0 + 1) q

/-- Character-list analogue of Go `strings.HasPrefix(s, pat)` (arguments:
pattern first, subject second). -/
def startsWith : List Char → List Char → Bool
  | [], _ => true
  | _ :: _, [] => false
  | a :: as, b :: bs => a = b && startsWith as bs

/-- Go `strings.TrimPrefix(s, pat)`: drop `pat` when it is a prefix, else
return `s` unchanged. -/
def trimPre (pat s : List Char) : List Char :=
  if startsWith pat s then s.drop pat.length else s

/-- Go `strings.TrimSuffix(s, pat)`: drop `pat` when it is a suffix, else
return `s` unchanged. -/
def trimSuf (pat s : List Char) : List Char :=
  if startsWith pat.reverse s.reverse then (s.reverse.drop pat.length).reverse else s

/-- Comment-text normalization in `ExtractSamples`:
`text := strings.TrimPrefix(c.Text, "//")`, then if `text` starts with
`"/*"` also strip that prefix and a trailing `"*/"`. -/
def trimMarkers (c : List Char) : List Char :=
  let t := trimPre ['/', '/'] c
  if startsWith ['/', '*'] t then trimSuf ['*', '/'] (t.drop 2) else t

/-- RE2 `\s` (the Perl whitespace class used by the `want=` regexp):
tab, newline, form feed, carriage return, space. -/
def reWS (c : Char) : Bool :=
  c = '\t' || c = '\n' || c = '\x0c' || c = '\r' || c = ' '

/-- One anchor position of `(?m)^\s*want=`: at a line start, `\s*` greedily
skips whitespace, and (because `w` is not whitespace) `want=` can only start
exactly where the whitespace run ends.  Returns the text after `want=`. -/
def matchAtLineStart (t : List Char) : Option (List Char) :=
  let rest := t.dropWhile reWS
  if startsWith ['w', 'a', 'n', 't', '='] rest then some (rest.drop 5) else none

/-- Leftmost-match search for `(?m)^\s*want=`: try each line start in order
(`atStart` tracks whether the current position follows a newline or is the
beginning of the text). -/
def findWantGo : Bool → List Char → Option (List Char)
  | _, [] => none
  | atStart, c :: t =>
    if atStart then
      match matchAtLineStart (c :: t) with
      | some r => some r
      | none => findWantGo (c = '\n') t
    else findWantGo (c = '\n') t

/-- Leftmost match of `(?m)^\s*want=` over the whole text (position 0 is a
line start). -/
def findWant (t : List Char) : Option (List Char) :=
  match matchAtLineStart t with
  | some r => some r
  | none =>
    match t with
    | [] => none
    | c :: t' => findWantGo (c = '\n') t'

/-- Capture group 2 of the `want=` regexp, `(?:\s+(.+\n))?` with `(?s)`,
matched against `tail` = the text from the end of the `want=` line (so
`tail` is empty or starts with a newline).  Backtracking semantics of the
greedy `\s+` then greedy `(.+\n)`: with `g` the maximal whitespace run and
`L1 - 1` the position of the last newline, the group participates iff some
character precedes a newline strictly after the `\s+` part, and then takes
`min g (L1 - 2)` whitespace characters and captures through the last
newline. -/
def parseM2 (tail : List Char) : Option (List Char) :=
  if tail = [] then none
  else
    let g := (tail.takeWhile reWS).length
    let L1 := (tail.reverse.dropWhile (fun c => !(c = '\n' : Bool))).length
    if 3 ≤ L1 then some ((tail.take L1).drop (min g (L1 - 2))) else none

/-- Go regexp `(?sm)^\s*want=([^\n]*)(?:\s+(.+\n))?\s*` applied with
`FindStringSubmatch`: group 1 is the rest of the `want=` line, group 2 the
optional sample-input block. -/
def wantMatch (t : List Char) : Option (List Char × Option (List Char)) :=
  match findWant t with
  | none => none
  | some rest =>
    let m1 := rest.takeWhile (fun c => !(c = '\n' : Bool))
    some (m1, parseM2 (rest.dropWhile (fun c => !(c = '\n' : Bool))))

/-- Go generic `Or[T comparable](list ...T)` at two string arguments:
the first non-zero (non-empty) element, else the zero value. -/
def goOr (a b : List Char) : List Char :=
  if a = [] then b else a

/-- Association-list lookup, modelling Go map indexing `m[k]`. -/
def lookupStr {α : Type} : List (String × α) → String → Option α
  | [], _ => none
  | (k', v) :: t, k => if k' = k then some v else lookupStr t k

/-- Association-list store, modelling Go map assignment `m[k] = v`. -/
def updStr {α : Type} : List (String × α) → String → α → List (String × α)
  | [], k, v => [(k, v)]
  | (k', v') :: t, k, v => if k' = k then (k, v) :: t else (k', v') :: updStr t k v

/-- A parsed Go function declaration as `ExtractSamples` sees it: its name
and the raw texts (`c.Text`) of the comments of its doc group.  A
declaration with no doc group is represented by an empty `docs` list (it is
skipped, just as in the source). -/
structure GoFuncDecl where
  name : String
  docs : List (List Char)
deriving DecidableEq

/-- The `want=` matches harvested from one declaration's doc comments, in
comment order. -/
def commentMatches (d : GoFuncDecl) : List (List Char × Option (List Char)) :=
  d.docs.filterMap (fun c => wantMatch (trimMarkers c))

/-- State threaded by `ExtractSamples`: the two package-level maps and the
`lastInput` local. -/
structure ExtractState where
  wantMap : List (String × List Char)
  inMap : List (String × List Char)
  lastInput : List Char
deriving DecidableEq

/-- One regexp match inside `ExtractSamples`'s loop:
`sampleWant[funcName] = m[1]; in := Or(m[2], lastInput);
sampleInput[funcName] = in; lastInput = in`. -/
def applyMatch (st : ExtractState) (name : String) (m : List Char × Option (List Char)) :
    ExtractState :=
  let inp := goOr (m.2.getD []) st.lastInput
  { wantMap := updStr st.wantMap name m.1
    inMap := updStr st.inMap name inp
    lastInput := inp }

/-- Processing one declaration: iterate its doc comments and apply every
`want=` match. -/
def extractStep (st : ExtractState) (d : GoFuncDecl) : ExtractState :=
  (commentMatches d).foldl (fun s m => applyMatch s d.name m) st

/-- Go `ExtractSamples(src)` after parsing: fold the per-declaration loop
over the file's declarations in order, starting from empty maps and an
empty `lastInput`. -/
def extractSamples (ds : List GoFuncDecl) : ExtractState :=
  ds.foldl extractStep ⟨[], [], []⟩

/-- A doc comment of the form `/*` newline `want=` W newline I `*/` —
a `want=` value together with an inline sample-input block. -/
def mkBlockComment (W I : List Char) : List Char :=
  '/' :: '*' :: '\n' :: (['w', 'a', 'n', 't', '='] ++ W ++ '\n' :: (I ++ ['*', '/']))

/-- The process-wide mutable state touched by `Main` and `Input`: the
`curDay` / `altInput` globals and the working directory's files (the
write-through input cache).  File contents are modelled at the rune level. -/
structure MutState where
  curDay : Int
  altInput : Option (List Char)
  files : List (String × List Char)
deriving DecidableEq

/-- The read-only environment of one run: the flag value, the registration
state (`puzzles` order list and `puzzleByName`, with each puzzle modelled as
a function from the bytes `Input()` hands it to its stringified result),
the sample tables, the session-credential file, and the remote endpoint
(`none` models a failed `Do`, otherwise a status code and body). -/
structure Env where
  flagDay : String
  puzzles : List String
  reg : List (String × (List Char → String))
  sampleWant : List (String × String)
  sampleInput : List (String × String)
  sessionFile : Option (List Char)
  http : Int → Option (Int × List Char)

/-- Go `Input()`.  Fatal paths (`MustGet` panics, `log.Fatalf` on a bad
status) are `Except.error`; the returned flag records whether the network
was used.  `http.NewRequest` for the fixed URL shape and the final
`os.WriteFile` cannot fail in this model. -/
def goInput (st : MutState) (sess : Option (List Char)) (http : Int → Option (Int × List Char)) :
    Except String (List Char × MutState × Bool) :=
  match st.altInput with
  | some b => .ok (b, st, false)
  | none =>
    match lookupStr st.files (toString st.curDay ++ ".input") with
    | some f => .ok (f, st, false)
    | none =>
      match sess with
      | none => .error "panic: reading session credential file"
      | some _ =>
        match http st.curDay with
        | none => .error "panic: http.DefaultClient.Do"
        | some (status, body) =>
          if status ≠ 200 then .error ("bad status: " ++ toString status)
          else .ok (body,
            { st with files := updStr st.files (toString st.curDay ++ ".input") body }, true)

/-- First maximal run of decimal digits in a list of characters —
`regexp.MustCompile(` backslash `d+).FindStringSubmatch` (leftmost match,
greedy). -/
def firstDigitsRun : List Char → Option (List Char)
  | [] => none
  | c :: t => if c.isDigit then some (c :: t.takeWhile Char.isDigit) else firstDigitsRun t

/-- Decimal value of a digit string. -/
def digitsVal (l : List Char) : Nat :=
  l.foldl (fun a c => a * 10 + (c.toNat - 48)) 0

/-- Go `Int(s)` = `MustGet(strconv.Atoi(s))` restricted to the digit runs it
is called on: the decimal value, failing (panic) past the 64-bit signed
range. -/
def goAtoi (l : List Char) : Option Int :=
  if l ≠ [] ∧ l.all Char.isDigit ∧ digitsVal l ≤ 9223372036854775807
  then some (digitsVal l) else none

/-- Steps 1-2 of `Main`: default the flag to the last registered puzzle
(indexing panics when none is registered), then prepend `"day"` when the
name starts with a decimal digit (indexing `funcName[0]` panics on an empty
name). -/
def resolveFuncName (env : Env) : Except String String :=
  match (if env.flagDay = "" then env.puzzles.getLast? else some env.flagDay) with
  | none => .error "panic: runtime error: index out of range"
  | some fn =>
    match fn.data.head? with
    | none => .error "panic: runtime error: index out of range"
    | some c => .ok (if c.isDigit then "day" ++ fn else fn)

/-- Steps 1-4 of `Main`: resolve the name, look it up in the registry
(`log.Fatalf` naming the resolved name on a miss), extract the first digit
run (`log.Fatalf` naming the requested `*flagDay` when there is none), and
convert it to the active day number. -/
def dispatch (env : Env) : Except String (String × (List Char → String) × Int) :=
  match resolveFuncName env with
  | .error e => .error e
  | .ok fn =>
    match lookupStr env.reg fn with
    | none => .error ("puzzle func " ++ fn ++ " not registered")
    | some f =>
      match firstDigitsRun fn.data with
      | none =>
        .error ("no digits in func name \"" ++ env.flagDay ++
          "\" from which to extract day number")
      | some run =>
        match goAtoi run with
        | none => .error "panic: strconv.Atoi: value out of range"
        | some d => .ok (fn, f, d)

/-- Tail of `Main`: `altInput = nil; v := f(); fmt.Println(v)` — the real
run.  Returns the final state, the stdout lines, and the stderr lines. -/
def runReal (env : Env) (f : List Char → String) (st : MutState) (errLines : List String) :
    Except String (MutState × List String × List String) :=
  match goInput st env.sessionFile env.http with
  | .error e => .error e
  | .ok (bytes, st', _) => .ok (st', [f bytes], errLines)

/-- State during the sample check: `curDay` set by dispatch and
`altInput = []byte(sampleInput[funcName])` (modelled as always non-nil). -/
def sampleState (env : Env) (st0 : MutState) (fn : String) (d : Int) : MutState :=
  { curDay := d, altInput := some (((lookupStr env.sampleInput fn).getD "").data),
    files := st0.files }

/-- Sample-check block of `Main` (the body of `if want, ok :=
sampleWant[funcName]; ok`): install the sample text as the override buffer,
invoke the puzzle through `Input`, and `os.Exit(1)` with the mismatch
report when the stringified result differs from `want`; on a match, clear
the override and do the real run with the confirmation on stderr. -/
def sampleCheck (env : Env) (st0 : MutState) (fn : String) (f : List Char → String)
    (d : Int) (want : String) : Except String (MutState × List String × List String) :=
  match goInput (sampleState env st0 fn d) env.sessionFile env.http with
  | .error e => .error e
  | .ok (bytes, st3, _) =>
    if f bytes ≠ want then
      .error ("❌ for " ++ fn ++ " sample, got=" ++ f bytes ++ "; want " ++ want)
    else
      runReal env f { st3 with altInput := none } ["OK sample result."]

/-- Middle of `Main` after dispatch assigned `curDay := d`: run the sample
check when a sample entry exists, else warn and go straight to the real
run with the override cleared. -/
def goMainAfter (env : Env) (st0 : MutState) (fn : String) (f : List Char → String)
    (d : Int) : Except String (MutState × List String × List String) :=
  match lookupStr env.sampleWant fn with
  | some want => sampleCheck env st0 fn f d want
  | none =>
    runReal env f { curDay := d, altInput := none, files := st0.files }
      ["⚠️ no sample for " ++ fn]

/-- Go `Main()` after flag parsing: dispatch, optional sample check, then
the real run. -/
def goMain (env : Env) (st0 : MutState) : Except String (MutState × List String × List String) :=
  match dispatch env with
  | .error e => .error e
  | .ok (fn, f, d) => goMainAfter env st0 fn f d

/-- Concrete run for the state-reset question: one registered sampleless
puzzle `day1` returning `"x"`, requested explicitly, with its input cached. -/
def envC : Env :=
  { flagDay := "day1", puzzles := ["day1"], reg := [("day1", fun _ => "x")],
    sampleWant := [], sampleInput := [], sessionFile := none, http := fun _ => none }

/-- Initial mutable state for `envC`: both globals at their zero values and
the day-1 cache file present. -/
def st0C : MutState :=
  { curDay := 0, altInput := none, files := [("1.input", ['h', 'i'])] }

/-- Concrete dispatch scenario: requesting an unregistered name. -/
def envU : Env :=
  { flagDay := "day9", puzzles := [], reg := [], sampleWant := [], sampleInput := [],
    sessionFile := none, http := fun _ => none }

/-- Concrete dispatch scenario: a registered name with no digits. -/
def envN : Env :=
  { flagDay := "abc", puzzles := [], reg := [("abc", fun _ => "r")], sampleWant := [],
    sampleInput := [], sessionFile := none, http := fun _ => none }

/-- Concrete dispatch scenario: flag `3` resolving to registered `day3`. -/
def envD : Env :=
  { flagDay := "3", puzzles := [], reg := [("day3", fun _ => "r")], sampleWant := [],
    sampleInput := [], sessionFile := none, http := fun _ => none }

/-! C5: Manhattan distance, with the 64-bit wraparound of the program. -/

theorem wrap64_eq_self (n : Int) (h1 : -(2 ^ 63) ≤ n) (h2 : n < 2 ^ 63) : wrap64 n = n := by
  unfold wrap64
  omega

theorem absInt_symm (x y : Int) : AbsInt x y = AbsInt y x := by
  simp only [AbsInt, wrap64]
  split_ifs <;> omega

/-- C5 counterexample: in the program's wraparound arithmetic,
`MDist((minInt64, 0), (0, 0))` is `minInt64`, which is negative and differs
from the true absolute-difference sum 2^63, and
`MDist((minInt64, minInt64), (0, 0))` is 0 although the points differ — so
non-negativity, the abs-sum equality and zero-iff-equality of the claim all
fail at these inputs. -/
theorem mdist_wrap_cex :
    MDist ⟨-(2 ^ 63), 0⟩ ⟨0, 0⟩ = -(2 ^ 63) ∧
    MDist ⟨-(2 ^ 63), 0⟩ ⟨0, 0⟩ < 0 ∧
    |(-(2 ^ 63) : Int) - 0| + |(0 : Int) - 0| = 2 ^ 63 ∧
    MDist ⟨-(2 ^ 63), -(2 ^ 63)⟩ ⟨0, 0⟩ = 0 ∧
    (⟨-(2 ^ 63), -(2 ^ 63)⟩ : Pt) ≠ (⟨0, 0⟩ : Pt) := by
  refine ⟨by decide, by decide, by decide, by decide, by decide⟩

/-- C5 (amended): `MDist` is symmetric for all points; and whenever the true
absolute coordinate differences sum below 2^63 (no int64 overflow anywhere
in the computation), `MDist(a, b)` equals that sum, is non-negative, and is
zero iff a = b.  At the int64 extremes the original claim fails
(`mdist_wrap_cex`). -/
theorem mdist_spec_wrapped (a b : Pt) :
    MDist a b = MDist b a ∧
    (|a.X - b.X| + |a.Y - b.Y| < 2 ^ 63 →
      MDist a b = |a.X - b.X| + |a.Y - b.Y| ∧
      0 ≤ MDist a b ∧
      (MDist a b = 0 ↔ a = b)) := by
  obtain ⟨ax, ay⟩ := a
  obtain ⟨bx, b2⟩ := b
  constructor
  · unfold MDist
    rw [absInt_symm ax bx, absInt_symm ay b2]
  · intro h
    simp only at h
    have hax := abs_nonneg (ax - bx)
    have hay := abs_nonneg (ay - b2)
    have hx : AbsInt ax bx = |ax - bx| := by
      simp only [AbsInt, wrap64]
      rcases abs_cases (ax - bx) with ⟨h1, h2⟩ | ⟨h1, h2⟩ <;> rw [h1] <;> split_ifs <;> omega
    have hy : AbsInt ay b2 = |ay - b2| := by
      simp only [AbsInt, wrap64]
      rcases abs_cases (ay - b2) with ⟨h1, h2⟩ | ⟨h1, h2⟩ <;> rw [h1] <;> split_ifs <;> omega
    have hm : MDist ⟨ax, ay⟩ ⟨bx, b2⟩ = |ax - bx| + |ay - b2| := by
      unfold MDist
      simp only
      rw [hx, hy]
      exact wrap64_eq_self _ (by omega) (by omega)
    refine ⟨hm, by rw [hm]; omega, ?_⟩
    rw [hm]
    simp only [Pt2.mk.injEq]
    rcases abs_cases (ax - bx) with ⟨h1, h2⟩ | ⟨h1, h2⟩ <;>
      rcases abs_cases (ay - b2) with ⟨h3, h4⟩ | ⟨h3, h4⟩ <;> rw [h1, h3] <;> omega

/-- Witness for C5's amended claim at a = (1, 2), b = (4, -2), whose
difference sum 7 is far from the overflow threshold. -/
theorem mdist_spec_wrapped_witness :
    MDist ⟨1, 2⟩ ⟨4, -2⟩ = MDist ⟨4, -2⟩ ⟨1, 2⟩ ∧
    (MDist ⟨1, 2⟩ ⟨4, -2⟩ = |(1 : Int) - 4| + |(2 : Int) - -2| ∧
      0 ≤ MDist ⟨1, 2⟩ ⟨4, -2⟩ ∧
      (MDist ⟨1, 2⟩ ⟨4, -2⟩ = 0 ↔ (⟨1, 2⟩ : Pt) = ⟨4, -2⟩)) :=
  ⟨(mdist_spec_wrapped ⟨1, 2⟩ ⟨4, -2⟩).1,
   (mdist_spec_wrapped ⟨1, 2⟩ ⟨4, -2⟩).2 (by decide)⟩

/-! Helper lemmas. -/

/-! C6: Toward. -/

/-- C6: `Toward(p, b)` changes each axis by at most one unit, leaves an axis
unchanged exactly when the target already agrees on it, and otherwise moves
one unit toward the target's coordinate on that axis (the receiver is a
value; the result is a fresh point). -/
theorem toward_spec (p b : Pt) :
    |(Toward p b).X - p.X| ≤ 1 ∧ |(Toward p b).Y - p.Y| ≤ 1 ∧
    (b.X = p.X → (Toward p b).X = p.X) ∧ (b.Y = p.Y → (Toward p b).Y = p.Y) ∧
    (b.X < p.X → (Toward p b).X = p.X - 1) ∧ (p.X < b.X → (Toward p b).X = p.X + 1) ∧
    (b.Y < p.Y → (Toward p b).Y = p.Y - 1) ∧ (p.Y < b.Y → (Toward p b).Y = p.Y + 1) := by
  obtain ⟨px, py⟩ := p
  obtain ⟨bx, b2⟩ := b
  simp only [Toward, abs_le]
  split_ifs <;> omega

/-- Witness for C6 at p = (0, 0), b = (5, -3). -/
theorem toward_spec_witness :
    |(Toward ⟨0, 0⟩ ⟨5, -3⟩).X - (0 : Int)| ≤ 1 ∧ |(Toward ⟨0, 0⟩ ⟨5, -3⟩).Y - (0 : Int)| ≤ 1 ∧
    ((5 : Int) = 0 → (Toward ⟨0, 0⟩ ⟨5, -3⟩).X = 0) ∧
    ((-3 : Int) = 0 → (Toward ⟨0, 0⟩ ⟨5, -3⟩).Y = 0) ∧
    ((5 : Int) < 0 → (Toward ⟨0, 0⟩ ⟨5, -3⟩).X = 0 - 1) ∧
    ((0 : Int) < 5 → (Toward ⟨0, 0⟩ ⟨5, -3⟩).X = 0 + 1) ∧
    ((-3 : Int) < 0 → (Toward ⟨0, 0⟩ ⟨5, -3⟩).Y = 0 - 1) ∧
    ((0 : Int) < -3 → (Toward ⟨0, 0⟩ ⟨5, -3⟩).Y = 0 + 1) :=
  toward_spec ⟨0, 0⟩ ⟨5, -3⟩

/-! C10: Bounds on the empty grid. -/

/-- C10: `Bounds` applied to an empty grid returns the zero values
(0, 0, 0, 0) for (minX, minY, maxX, maxY); the operation is total (it is a
plain fold and cannot fail). -/
theorem bounds_empty_total : Bounds ([] : Grid) = (0, 0, 0, 0) := rfl

/-! C3: input resolution. -/

/-- C3: `Input()` returns the override bytes verbatim when the override
buffer is set; otherwise returns the cache file's bytes unmodified with no
network access when the day-derived cache file exists; and only when the
cache file is absent does it fetch remotely, failing fatally on a
non-success status and otherwise persisting the body to the cache file and
returning it. -/
theorem input_resolution (st : MutState) (sess : Option (List Char))
    (http : Int → Option (Int × List Char)) :
    (∀ b, st.altInput = some b → goInput st sess http = .ok (b, st, false)) ∧
    (∀ f, st.altInput = none →
      lookupStr st.files (toString st.curDay ++ ".input") = some f →
      goInput st sess http = .ok (f, st, false)) ∧
    (∀ s status body, st.altInput = none →
      lookupStr st.files (toString st.curDay ++ ".input") = none →
      sess = some s → http st.curDay = some (status, body) →
      (status ≠ 200 → goInput st sess http = .error ("bad status: " ++ toString status)) ∧
      (status = 200 → goInput st sess http =
        .ok (body, { st with files := updStr st.files (toString st.curDay ++ ".input") body },
          true))) := by
  refine ⟨?_, ?_, ?_⟩
  · intro b hb
    simp [goInput, hb]
  · intro f ha hf
    simp [goInput, ha, hf]
  · intro s status body ha hf hs hh
    subst hs
    constructor
    · intro hstat
      simp [goInput, ha, hf, hh, hstat]
    · intro hstat
      subst hstat
      simp [goInput, ha, hf, hh]

/-- Witness for C3: override hit, cache hit, and the two network outcomes,
each at concrete states. -/
theorem input_resolution_witness :
    goInput ⟨1, some ['a'], []⟩ none (fun _ => none) = .ok (['a'], ⟨1, some ['a'], []⟩, false) ∧
    goInput ⟨1, none, [("1.input", ['h'])]⟩ none (fun _ => none) =
      .ok (['h'], ⟨1, none, [("1.input", ['h'])]⟩, false) ∧
    goInput ⟨2, none, []⟩ (some ['t']) (fun _ => some (404, [])) = .error ("bad status: " ++ toString 404) ∧
    goInput ⟨2, none, []⟩ (some ['t']) (fun _ => some (200, ['b'])) =
      .ok (['b'], { curDay := 2, altInput := none, files := updStr [] (toString (2 : Int) ++ ".input") ['b'] },
        true) := by
  refine ⟨(input_resolution _ _ _).1 ['a'] rfl, (input_resolution _ _ _).2.1 ['h'] rfl rfl, ?_, ?_⟩
  · exact ((input_resolution ⟨2, none, []⟩ (some ['t']) (fun _ => some (404, []))).2.2
      ['t'] 404 [] rfl rfl rfl rfl).1 (by decide)
  · exact ((input_resolution ⟨2, none, []⟩ (some ['t']) (fun _ => some (200, ['b']))).2.2
      ['t'] 200 ['b'] rfl rfl rfl rfl).2 rfl

/-! C7: ForNeighbors. -/

theorem visitRun_all_true : ∀ (qs : List Pt) (f : Pt → Bool),
    (∀ q ∈ qs, f q = true) → visitRun qs f = qs := by
  intro qs f h
  induction qs with
  | nil => rfl
  | cons q t ih =>
    have hq : f q = true := h q (by simp)
    simp [visitRun, hq, ih (fun x hx => h x (by simp [hx]))]

theorem visitRun_take : ∀ (qs : List Pt) (f : Pt → Bool),
    ∃ n, visitRun qs f = qs.take n := by
  intro qs f
  induction qs with
  | nil => exact ⟨0, rfl⟩
  | cons q t ih =>
    obtain ⟨n, hn⟩ := ih
    by_cases hq : f q = true
    · exact ⟨n + 1, by simp [visitRun, hq, hn]⟩
    · exact ⟨1, by simp [visitRun, hq]⟩

theorem visitRun_stop : ∀ (qs : List Pt) (f : Pt → Bool),
    ∀ q ∈ (visitRun qs f).dropLast, f q = true := by
  intro qs f
  induction qs with
  | nil => intro x hx; simp [visitRun] at hx
  | cons q t ih =>
    intro x hx
    by_cases hq : f q = true
    · simp only [visitRun, hq, if_true] at hx
      rcases ht : visitRun t f with _ | ⟨y, ys⟩
      · rw [ht] at hx
        simp at hx
      · rw [ht] at hx
        simp only [List.dropLast, List.mem_cons] at hx
        rcases hx with hx | hx
        · rw [hx]; exact hq
        · refine ih x ?_
          rw [ht]
          simpa [List.dropLast] using hx
    · simp [visitRun, hq] at hx

/-- C7: with a visitor that always keeps going, `ForNeighbors` invokes it on
exactly the 8 distinct points around p (none equal to p), whose offsets from
p are exactly the set of pairs in the range -1..1 by -1..1 minus the origin,
in row-major order within the 3x3 block; and with any visitor, the visited
sequence is a stop-free run: a front segment of that order in which every
point before the stopping one answered keep-going. -/
theorem forNeighbors_spec (p : Pt) (f : Pt → Bool) :
    ((∀ q, f q = true) → ForNeighbors p f = neighborList p) ∧
    (neighborList p).length = 8 ∧
    (neighborList p).Nodup ∧
    p ∉ neighborList p ∧
    (neighborList p).map (fun q => (q.X - p.X, q.Y - p.Y)) = neighborOffsets ∧
    (∀ dx dy : Int, (dx, dy) ∈ neighborOffsets ↔
      (-1 ≤ dx ∧ dx ≤ 1 ∧ -1 ≤ dy ∧ dy ≤ 1 ∧ ¬(dx = 0 ∧ dy = 0))) ∧
    (∃ n, ForNeighbors p f = (neighborList p).take n) ∧
    (∀ q ∈ (ForNeighbors p f).dropLast, f q = true) := by
  obtain ⟨px, py⟩ := p
  refine ⟨fun h => visitRun_all_true _ f (fun q _ => h q), rfl, ?_, ?_, ?_, ?_,
    visitRun_take _ f, visitRun_stop _ f⟩
  · simp [neighborList, neighborOffsets, Pt2.mk.injEq]
  · simp [neighborList, neighborOffsets, Pt2.mk.injEq]
  · simp [neighborList, neighborOffsets]
  · intro dx dy
    simp only [neighborOffsets, List.mem_cons, List.not_mem_nil, Prod.mk.injEq, or_false]
    constructor
    · rintro (⟨h1, h2⟩ | ⟨h1, h2⟩ | ⟨h1, h2⟩ | ⟨h1, h2⟩ | ⟨h1, h2⟩ | ⟨h1, h2⟩ |
        ⟨h1, h2⟩ | ⟨h1, h2⟩) <;> omega
    · rintro ⟨h1, h2, h3, h4, h5⟩
      rcases Int.lt_trichotomy dx 0 with h | h | h <;>
        rcases Int.lt_trichotomy dy 0 with h' | h' | h'
      all_goals first
        | (left; omega)
        | (right; left; omega)
        | (right; right; left; omega)
        | (right; right; right; left; omega)
        | (right; right; right; right; left; omega)
        | (right; right; right; right; right; left; omega)
        | (right; right; right; right; right; right; left; omega)
        | (right; right; right; right; right; right; right; omega)

/-- Witness for C7 at p = (0, 0) with the always-true visitor. -/
theorem forNeighbors_spec_witness :
    ForNeighbors ⟨0, 0⟩ (fun _ => true) = neighborList ⟨0, 0⟩ ∧
    (neighborList ⟨0, 0⟩).length = 8 ∧
    ((0 : Int), (0 : Int)) ∉ neighborOffsets :=
  ⟨(forNeighbors_spec ⟨0, 0⟩ (fun _ => true)).1 (fun _ => rfl),
   (forNeighbors_spec ⟨0, 0⟩ (fun _ => true)).2.1,
   fun h => by
    rcases ((forNeighbors_spec ⟨0, 0⟩ (fun _ => true)).2.2.2.2.2.1 0 0).1 h with ⟨_, _, _, _, hc⟩
    exact hc ⟨rfl, rfl⟩⟩

/-! C2 and C4: dispatch and the run of Main. -/

theorem goInput_preserves (st : MutState) (sess : Option (List Char))
    (http : Int → Option (Int × List Char)) (b : List Char) (st' : MutState) (u : Bool)
    (h : goInput st sess http = .ok (b, st', u)) :
    st'.curDay = st.curDay ∧ st'.altInput = st.altInput := by
  unfold goInput at h
  split at h
  · simp only [Except.ok.injEq, Prod.mk.injEq] at h
    obtain ⟨h1, h2, h3⟩ := h
    rw [← h2]
    exact ⟨rfl, rfl⟩
  · split at h
    · simp only [Except.ok.injEq, Prod.mk.injEq] at h
      obtain ⟨h1, h2, h3⟩ := h
      rw [← h2]
      exact ⟨rfl, rfl⟩
    · split at h
      · exact absurd h (by simp)
      · split at h
        · exact absurd h (by simp)
        · split at h
          · exact absurd h (by simp)
          · simp only [Except.ok.injEq, Prod.mk.injEq] at h
            obtain ⟨h1, h2, h3⟩ := h
            rw [← h2]
            exact ⟨rfl, rfl⟩

theorem runReal_spec (env : Env) (f : List Char → String) (st : MutState)
    (lines : List String) (st' : MutState) (out err : List String)
    (h : runReal env f st lines = .ok (st', out, err)) :
    st'.curDay = st.curDay ∧ st'.altInput = st.altInput ∧ err = lines ∧
    ∃ bytes u, goInput st env.sessionFile env.http = .ok (bytes, st', u) ∧ out = [f bytes] := by
  unfold runReal at h
  rcases hg : goInput st env.sessionFile env.http with e | ⟨bytes, st2, u⟩
  · rw [hg] at h
    exact absurd h (by simp)
  · rw [hg] at h
    simp only [Except.ok.injEq, Prod.mk.injEq] at h
    obtain ⟨h1, h2, h3⟩ := h
    subst h1
    obtain ⟨hc, ha⟩ := goInput_preserves st env.sessionFile env.http bytes st2 u hg
    exact ⟨hc, ha, h3.symm, bytes, u, rfl, h2.symm⟩

theorem all_takeWhile' (p : Char → Bool) : ∀ l : List Char, (l.takeWhile p).all p = true := by
  intro l
  induction l with
  | nil => rfl
  | cons c t ih =>
    by_cases hc : p c = true
    · simp [List.takeWhile_cons, hc, ih]
    · simp [List.takeWhile_cons, hc]

theorem firstDigitsRun_form : ∀ l run : List Char, firstDigitsRun l = some run →
    run ≠ [] ∧ run.all Char.isDigit = true := by
  intro l
  induction l with
  | nil => intro run h; exact absurd h (by simp [firstDigitsRun])
  | cons c t ih =>
    intro run h
    by_cases hc : c.isDigit = true
    · simp only [firstDigitsRun, hc, if_true, Option.some.injEq] at h
      refine ⟨by rw [← h]; simp, ?_⟩
      rw [← h]
      simp only [List.all_cons, hc, Bool.true_and]
      exact all_takeWhile' Char.isDigit t
    · simp only [firstDigitsRun, hc] at h
      simp only [Bool.false_eq_true, if_false] at h
      exact ih run h

theorem goMain_curDay (env : Env) (st0 : MutState) (fn : String)
    (f : List Char → String) (d : Int) (st' : MutState) (out err : List String)
    (hd : dispatch env = .ok (fn, f, d)) (h : goMain env st0 = .ok (st', out, err)) :
    st'.curDay = d := by
  unfold goMain at h
  split at h
  · exact absurd h (by simp)
  · rename_i fn' f' d' heq
    rw [hd] at heq
    simp only [Except.ok.injEq, Prod.mk.injEq] at heq
    obtain ⟨h1, h2, h3⟩ := heq
    subst h1
    subst h2
    subst h3
    unfold goMainAfter at h
    split at h
    · rename_i want hw
      unfold sampleCheck at h
      split at h
      · exact absurd h (by simp)
      · rename_i bytes st3 u heq2
        split at h
        · exact absurd h (by simp)
        · obtain ⟨hc, -, -, -⟩ := runReal_spec env f _ _ st' out err h
          obtain ⟨hc3, -⟩ := goInput_preserves _ env.sessionFile env.http bytes st3 u heq2
          rw [hc]
          exact hc3
    · rename_i hw
      obtain ⟨hc, -, -, -⟩ := runReal_spec env f _ _ st' out err h
      rw [hc]

/-- C2: dispatch is fatal both on an unregistered resolved identifier and on
a resolved identifier without decimal digits, printing in the first case a
diagnostic naming the resolved identifier and in the second a diagnostic
naming the requested (pre-resolution) identifier; when a digit run is
present (and in 64-bit range), the active day is the decimal value of the
first digit run of the resolved identifier. -/
theorem dispatch_fatal_and_day (env : Env) (st0 : MutState) (fn : String)
    (hres : resolveFuncName env = .ok fn) :
    (lookupStr env.reg fn = none →
      goMain env st0 = .error ("puzzle func " ++ fn ++ " not registered")) ∧
    (∀ f, lookupStr env.reg fn = some f → firstDigitsRun fn.data = none →
      goMain env st0 = .error ("no digits in func name \"" ++ env.flagDay ++
        "\" from which to extract day number")) ∧
    (∀ f run, lookupStr env.reg fn = some f → firstDigitsRun fn.data = some run →
      digitsVal run ≤ 9223372036854775807 →
      dispatch env = .ok (fn, f, (digitsVal run : Int)) ∧
      ∀ st' out err, goMain env st0 = .ok (st', out, err) →
        st'.curDay = (digitsVal run : Int)) := by
  refine ⟨?_, ?_, ?_⟩
  · intro hreg
    have hdisp : dispatch env = .error ("puzzle func " ++ fn ++ " not registered") := by
      unfold dispatch
      rw [hres]
      simp only [hreg]
    unfold goMain
    rw [hdisp]
  · intro f hreg hdig
    have hdisp : dispatch env = .error ("no digits in func name \"" ++ env.flagDay ++
        "\" from which to extract day number") := by
      unfold dispatch
      rw [hres]
      simp only [hreg, hdig]
    unfold goMain
    rw [hdisp]
  · intro f run hreg hdig hle
    obtain ⟨hne, hall⟩ := firstDigitsRun_form fn.data run hdig
    have hatoi : goAtoi run = some ((digitsVal run : Nat) : Int) := by
      unfold goAtoi
      rw [if_pos ⟨hne, hall, hle⟩]
    have hd : dispatch env = .ok (fn, f, (digitsVal run : Int)) := by
      unfold dispatch
      rw [hres]
      simp only [hreg, hdig, hatoi]
    exact ⟨hd, fun st' out err h => goMain_curDay env st0 fn f _ st' out err hd h⟩

/-- Witness for C2: an unregistered name, a digitless registered name, and a
digit-bearing registered name, at concrete environments. -/
theorem dispatch_fatal_and_day_witness :
    goMain envU st0C = .error "puzzle func day9 not registered" ∧
    goMain envN st0C = .error "no digits in func name \"abc\" from which to extract day number" ∧
    dispatch envD = .ok ("day3", fun _ => "r", (3 : Int)) := by
  refine ⟨?_, ?_, ?_⟩
  · exact (dispatch_fatal_and_day envU st0C "day9" rfl).1 rfl
  · exact (dispatch_fatal_and_day envN st0C "abc" rfl).2.1 (fun _ => "r") rfl rfl
  · exact ((dispatch_fatal_and_day envD st0C "day3" rfl).2.2 (fun _ => "r") ['3']
      rfl rfl (by decide)).1

/-- C4 counterexample: running `Main` on `envC` from zeroed globals ends
with `curDay = 1`, not restored to its initial zero value — the current-day
state is not reset after the invocation completes. -/
theorem main_state_not_reset_cex :
    goMain envC st0C =
      .ok ({ curDay := 1, altInput := none, files := [("1.input", ['h', 'i'])] }, ["x"],
        ["⚠️ no sample for day1"]) ∧
    st0C.curDay = 0 ∧ ((1 : Int) = 0 → False) := by
  exact ⟨rfl, rfl, by omega⟩

/-- C4 (amended): after the sample check, the override buffer is cleared
before the puzzle runs against real input — the real run's `Input` sees a
nil override, the final state's override is nil, and the stringified real
result is printed to standard output; the current-day state, however, is
not reset: the final state retains the day extracted at dispatch. -/
theorem main_override_cleared_day_retained (env : Env) (st0 : MutState)
    (st' : MutState) (out err : List String) (h : goMain env st0 = .ok (st', out, err)) :
    st'.altInput = none ∧
    ∃ fn f stMid bytes u, dispatch env = .ok (fn, f, st'.curDay) ∧
      stMid.altInput = none ∧
      goInput stMid env.sessionFile env.http = .ok (bytes, st', u) ∧
      out = [f bytes] := by
  unfold goMain at h
  split at h
  · exact absurd h (by simp)
  · rename_i fn f d heq
    unfold goMainAfter at h
    split at h
    · rename_i want hw
      unfold sampleCheck at h
      split at h
      · exact absurd h (by simp)
      · rename_i bytes0 st3 u3 heq2
        split at h
        · exact absurd h (by simp)
        · obtain ⟨hc, ha, herr, bytes, u, hg2, hout⟩ := runReal_spec env f _ _ st' out err h
          obtain ⟨hc3, -⟩ := goInput_preserves _ env.sessionFile env.http bytes0 st3 u3 heq2
          have hcd : st'.curDay = d := by
            rw [hc]
            exact hc3
          refine ⟨ha.trans rfl, fn, f, { st3 with altInput := none }, bytes, u, ?_, rfl, hg2, hout⟩
          rw [hcd]
          exact heq
    · rename_i hw
      obtain ⟨hc, ha, herr, bytes, u, hg2, hout⟩ := runReal_spec env f _ _ st' out err h
      have hcd : st'.curDay = d := by
        rw [hc]
      refine ⟨ha.trans rfl, fn, f, _, bytes, u, ?_, rfl, hg2, hout⟩
      rw [hcd]
      exact heq

/-- Witness for C4's amended claim: the concrete `envC` run. -/
theorem main_override_cleared_day_retained_witness :
    ({ curDay := 1, altInput := none, files := [("1.input", ['h', 'i'])] } : MutState).altInput
        = none ∧
    ∃ fn f stMid bytes u, dispatch envC = .ok (fn, f,
        ({ curDay := 1, altInput := none, files := [("1.input", ['h', 'i'])] } : MutState).curDay) ∧
      stMid.altInput = none ∧
      goInput stMid envC.sessionFile envC.http =
        .ok (bytes, { curDay := 1, altInput := none, files := [("1.input", ['h', 'i'])] }, u) ∧
      ["x"] = [f bytes] :=
  main_override_cleared_day_retained envC st0C
    { curDay := 1, altInput := none, files := [("1.input", ['h', 'i'])] } ["x"]
    ["⚠️ no sample for day1"] rfl

/-! C8 and C9: the grid model. -/

theorem gridLookup_gridInsert (g : Grid) (p : Pt) (r : Char) (q : Pt) :
    gridLookup (gridInsert g p r) q = if q = p then some r else gridLookup g q := by
  induction g with
  | nil =>
    rcases eq_or_ne p q with h | h
    · subst h
      simp [gridInsert, gridLookup]
    · simp [gridInsert, gridLookup, h, (Ne.symm h)]
  | cons e t ih =>
    obtain ⟨pk, pv⟩ := e
    by_cases h1 : pk = p
    · subst h1
      rcases eq_or_ne pk q with h2 | h2
      · subst h2
        simp [gridInsert, gridLookup]
      · simp [gridInsert, gridLookup, h2, (Ne.symm h2)]
    · rcases eq_or_ne pk q with h2 | h2
      · subst h2
        simp [gridInsert, gridLookup, h1, (Ne.symm h1)]
      · simp [gridInsert, gridLookup, h1, h2, ih]

theorem utf8Len_pos (c : Char) : 1 ≤ utf8Len c := by
  unfold utf8Len
  split_ifs <;> omega

theorem lineCharFrom_lt : ∀ (line : List Char) (x0 : Nat) (x : Int), x < (x0 : Int) →
    lineCharFrom line x0 x = none := by
  intro line
  induction line with
  | nil => intros; rfl
  | cons r t ih =>
    intro x0 x hx
    simp only [lineCharFrom]
    rw [if_neg (by omega)]
    refine ih (x0 + utf8Len r) x ?_
    have := utf8Len_pos r
    push_cast
    omega

theorem rowCharFrom_lt : ∀ (rows : List (List Char)) (y0 : Nat) (q : Pt), q.Y < (y0 : Int) →
    rowCharFrom rows y0 q = none := by
  intro rows
  induction rows with
  | nil => intros; rfl
  | cons line t ih =>
    intro y0 q hy
    simp only [rowCharFrom]
    rw [if_neg (by omega)]
    exact ih (y0 + 1) q (by push_cast; omega)

theorem gridLookup_gridAddLine : ∀ (line : List Char) (g : Grid) (y : Int) (x0 : Nat) (q : Pt),
    gridLookup (gridAddLine g y x0 line) q =
      Option.or (if q.Y = y then lineCharFrom line x0 q.X else none) (gridLookup g q) := by
  intro line
  induction line with
  | nil =>
    intro g y x0 q
    simp [gridAddLine, lineCharFrom]
  | cons r t ih =>
    intro g y x0 q
    obtain ⟨qx, qy⟩ := q
    simp only [gridAddLine]
    rw [ih]
    by_cases hy : qy = y
    · subst hy
      by_cases hx : qx = (x0 : Int)
      · rw [lineCharFrom_lt t (x0 + utf8Len r) qx
          (by have := utf8Len_pos r; push_cast; omega)]
        by_cases hs : goIsSpace r = true
        · simp [lineCharFrom, hx, hs]
        · simp only [Bool.not_eq_true] at hs
          simp [lineCharFrom, hx, hs, gridLookup_gridInsert, Pt2.mk.injEq]
      · by_cases hs : goIsSpace r = true
        · simp [lineCharFrom, hx, hs]
        · simp only [Bool.not_eq_true] at hs
          simp [lineCharFrom, hx, hs, gridLookup_gridInsert, Pt2.mk.injEq]
    · by_cases hs : goIsSpace r = true
      · simp [lineCharFrom, hy, hs]
      · simp only [Bool.not_eq_true] at hs
        simp [lineCharFrom, hy, hs, gridLookup_gridInsert, Pt2.mk.injEq]

theorem gridLookup_gridAddRows : ∀ (rows : List (List Char)) (g : Grid) (y0 : Nat) (q : Pt),
    gridLookup (gridAddRows g y0 rows) q =
      Option.or (rowCharFrom rows y0 q) (gridLookup g q) := by
  intro rows
  induction rows with
  | nil =>
    intro g y0 q
    simp [gridAddRows, rowCharFrom]
  | cons line t ih =>
    intro g y0 q
    simp only [gridAddRows]
    rw [ih, gridLookup_gridAddLine]
    by_cases hy : q.Y = (y0 : Int)
    · rw [rowCharFrom_lt t (y0 + 1) q (by push_cast; omega)]
      simp [rowCharFrom, hy]
    · simp [rowCharFrom, hy]

theorem gridLookup_GridFromString (s : List Char) (q : Pt) :
    gridLookup (GridFromString s) q = rowCharFrom (splitNL s) 0 q := by
  unfold GridFromString
  rw [gridLookup_gridAddRows]
  simp [gridLookup]

theorem lineCharFrom_eq_some : ∀ (row : List Char) (x0 : Nat) (x : Int) (r : Char),
    lineCharFrom row x0 x = some r ↔
      ∃ k : Nat, x = ((x0 + utf8Off row k : Nat) : Int) ∧ row[k]? = some r ∧
        goIsSpace r = false := by
  intro row
  induction row with
  | nil => intro x0 x r; simp [lineCharFrom]
  | cons c t ih =>
    intro x0 x r
    simp only [lineCharFrom]
    by_cases hx : x = (x0 : Int)
    · rw [if_pos hx]
      constructor
      · intro h
        by_cases hs : goIsSpace c = true
        · rw [if_pos hs] at h
          exact absurd h (by simp)
        · rw [if_neg hs] at h
          simp only [Option.some.injEq] at h
          subst h
          refine ⟨0, ?_, by simp, by simpa using hs⟩
          rw [show utf8Off (c :: t) 0 = 0 from rfl]
          push_cast
          omega
      · rintro ⟨k, hk, hget, hsp⟩
        have hk0 : k = 0 := by
          cases k with
          | zero => rfl
          | succ j =>
            exfalso
            have hp := utf8Len_pos c
            have hoff : utf8Off (c :: t) (j + 1) = utf8Len c + utf8Off t j := rfl
            rw [hx, hoff] at hk
            push_cast at hk
            omega
        subst hk0
        simp only [List.getElem?_cons_zero, Option.some.injEq] at hget
        subst hget
        rw [if_neg (by simpa using hsp)]
    · rw [if_neg hx]
      rw [ih (x0 + utf8Len c) x r]
      constructor
      · rintro ⟨k, hk, hget, hsp⟩
        refine ⟨k + 1, ?_, by simpa using hget, hsp⟩
        rw [show utf8Off (c :: t) (k + 1) = utf8Len c + utf8Off t k from rfl]
        push_cast at hk ⊢
        omega
      · rintro ⟨k, hk, hget, hsp⟩
        cases k with
        | zero =>
          refine absurd hk ?_
          rw [show utf8Off (c :: t) 0 = 0 from rfl]
          push_cast
          omega
        | succ j =>
          refine ⟨j, ?_, by simpa using hget, hsp⟩
          rw [show utf8Off (c :: t) (j + 1) = utf8Len c + utf8Off t j from rfl] at hk
          push_cast at hk ⊢
          omega

theorem rowCharFrom_eq_some : ∀ (rows : List (List Char)) (y0 : Nat) (q : Pt) (r : Char),
    rowCharFrom rows y0 q = some r ↔
      ∃ (j : Nat) (row : List Char), q.Y = ((y0 + j : Nat) : Int) ∧ rows[j]? = some row ∧
        lineCharFrom row 0 q.X = some r := by
  intro rows
  induction rows with
  | nil => intro y0 q r; simp [rowCharFrom]
  | cons line t ih =>
    intro y0 q r
    simp only [rowCharFrom]
    by_cases hy : q.Y = (y0 : Int)
    · rw [if_pos hy]
      constructor
      · intro h
        exact ⟨0, line, by push_cast; omega, by simp, h⟩
      · rintro ⟨j, line', hj, hget, hline⟩
        have hj0 : j = 0 := by
          rw [hy] at hj
          push_cast at hj
          omega
        subst hj0
        simp only [List.getElem?_cons_zero, Option.some.injEq] at hget
        subst hget
        exact hline
    · rw [if_neg hy]
      rw [ih (y0 + 1) q r]
      constructor
      · rintro ⟨j, line', hj, hget, hline⟩
        refine ⟨j + 1, line', by push_cast at hj ⊢; omega, by simpa using hget, hline⟩
      · rintro ⟨j, line', hj, hget, hline⟩
        cases j with
        | zero =>
          refine absurd hj (by push_cast; omega)
        | succ j' =>
          refine ⟨j', line', by push_cast at hj ⊢; omega, by simpa using hget, hline⟩

theorem utf8Off_ascii : ∀ (row : List Char) (k : Nat), k ≤ row.length →
    (∀ c ∈ row, utf8Len c = 1) → utf8Off row k = k := by
  intro row
  induction row with
  | nil =>
    intro k hk _
    have hk0 : k = 0 := by simpa using hk
    subst hk0
    rfl
  | cons c t ih =>
    intro k hk hall
    cases k with
    | zero => rfl
    | succ j =>
      have hc : utf8Len c = 1 := hall c (by simp)
      have ht : utf8Off t j = j := ih j (by simpa using hk) (fun c2 hc2 => hall c2 (by simp [hc2]))
      show utf8Len c + utf8Off t j = j + 1
      omega

/-- C8 counterexample: on the line with the two-byte character `é` followed
by `?`, the program stores `?` at byte offset 2 of row 0 and nothing at
(1, 0) — yet `?` is the character at 0-based position 1 of that line, so the
original claim's characterization (each stored at key (column, row) matching
character order) demands an entry at (1, 0). -/
theorem gridFromString_byteoffset_cex :
    gridLookup (GridFromString ['é', '?']) ⟨2, 0⟩ = some '?' ∧
    gridLookup (GridFromString ['é', '?']) ⟨1, 0⟩ = none ∧
    (splitNL ['é', '?'])[0]? = some ['é', '?'] ∧
    (['é', '?'] : List Char)[1]? = some '?' ∧
    goIsSpace '?' = false := by
  refine ⟨by decide, by decide, by decide, by decide, by decide⟩

/-- C8 (amended): a grid built by `GridFromString` holds exactly the
non-whitespace characters of the text, each stored at key (column, row)
where the row is the 0-based line index and the column is the character's
0-based BYTE offset within its line (Go's `range` index), and nothing else;
the byte offset coincides with the character index whenever the preceding
characters of the line are single-byte — in particular for ASCII text, so
the text with rows `AB` and `CD` gives exactly the four expected entries
and `Bounds` of that grid is (0, 0, 1, 1). -/
theorem gridFromString_spec (s : List Char) (p : Pt) (r : Char) :
    (gridLookup (GridFromString s) p = some r ↔
      ∃ (k yn : Nat) (row : List Char), p = ⟨(utf8Off row k : Int), (yn : Int)⟩ ∧
        (splitNL s)[yn]? = some row ∧ row[k]? = some r ∧ goIsSpace r = false) ∧
    (∀ (row : List Char) (k : Nat), k ≤ row.length → (∀ c ∈ row, utf8Len c = 1) →
      utf8Off row k = k) ∧
    GridFromString ['A', 'B', '\n', 'C', 'D'] =
      [(⟨0, 0⟩, 'A'), (⟨1, 0⟩, 'B'), (⟨0, 1⟩, 'C'), (⟨1, 1⟩, 'D')] ∧
    Bounds (GridFromString ['A', 'B', '\n', 'C', 'D']) = (0, 0, 1, 1) := by
  refine ⟨?_, utf8Off_ascii, by decide, by decide⟩
  obtain ⟨px, py⟩ := p
  rw [gridLookup_GridFromString, rowCharFrom_eq_some]
  constructor
  · rintro ⟨j, line, hy, hrow, hline⟩
    rw [lineCharFrom_eq_some] at hline
    obtain ⟨k, hx, hget, hsp⟩ := hline
    simp only at hx hy
    refine ⟨k, j, line, ?_, hrow, hget, hsp⟩
    simp only [Pt2.mk.injEq]
    push_cast at hx hy
    exact ⟨by omega, by omega⟩
  · rintro ⟨k, yn, line, hp, hrow, hget, hsp⟩
    simp only [Pt2.mk.injEq] at hp
    obtain ⟨hx, hy⟩ := hp
    refine ⟨yn, line, by simp only; push_cast; omega, hrow, ?_⟩
    rw [lineCharFrom_eq_some]
    refine ⟨k, by simp only; push_cast; omega, hget, hsp⟩

/-- Witness for C8's amended claim at the text with rows `AB` and `CD`,
point (0, 0), character `A`. -/
theorem gridFromString_spec_witness :
    (gridLookup (GridFromString ['A', 'B', '\n', 'C', 'D']) ⟨0, 0⟩ = some 'A' ↔
      ∃ (k yn : Nat) (row : List Char), (⟨0, 0⟩ : Pt) = ⟨(utf8Off row k : Int), (yn : Int)⟩ ∧
        (splitNL ['A', 'B', '\n', 'C', 'D'])[yn]? = some row ∧ row[k]? = some 'A' ∧
        goIsSpace 'A' = false) ∧
    (∀ (row : List Char) (k : Nat), k ≤ row.length → (∀ c ∈ row, utf8Len c = 1) →
      utf8Off row k = k) ∧
    GridFromString ['A', 'B', '\n', 'C', 'D'] =
      [(⟨0, 0⟩, 'A'), (⟨1, 0⟩, 'B'), (⟨0, 1⟩, 'C'), (⟨1, 1⟩, 'D')] ∧
    Bounds (GridFromString ['A', 'B', '\n', 'C', 'D']) = (0, 0, 1, 1) :=
  gridFromString_spec ['A', 'B', '\n', 'C', 'D'] ⟨0, 0⟩ 'A'

/-- C9: no entry of a grid built by grid construction holds a whitespace
character; whitespace characters are never inserted. -/
theorem grid_no_whitespace (s : List Char) (p : Pt) (r : Char)
    (h : gridLookup (GridFromString s) p = some r) : goIsSpace r = false := by
  rw [gridLookup_GridFromString, rowCharFrom_eq_some] at h
  obtain ⟨j, line, -, -, hline⟩ := h
  rw [lineCharFrom_eq_some] at hline
  obtain ⟨k, -, -, hsp⟩ := hline
  exact hsp

/-- Witness for C9 at the text `ab`, blank line, `cd`, on entry (0, 0). -/
theorem grid_no_whitespace_witness : goIsSpace 'a' = false :=
  grid_no_whitespace ['a', 'b', '\n', '\n', 'c', 'd'] ⟨0, 0⟩ 'a' (by decide)

/-! C1: sample extraction. -/

theorem extractSamples_append (xs : List GoFuncDecl) (d : GoFuncDecl) :
    extractSamples (xs ++ [d]) = extractStep (extractSamples xs) d := by
  unfold extractSamples
  rw [List.foldl_append]
  rfl

theorem extractStep_single (st : ExtractState) (d : GoFuncDecl)
    (m : List Char × Option (List Char)) (hm : commentMatches d = [m]) :
    extractStep st d = applyMatch st d.name m := by
  unfold extractStep
  rw [hm]
  rfl

theorem lookup_updStr_self {α : Type} : ∀ (m : List (String × α)) (k : String) (v : α),
    lookupStr (updStr m k v) k = some v := by
  intro m
  induction m with
  | nil => intro k v; simp [updStr, lookupStr]
  | cons e t ih =>
    intro k v
    obtain ⟨k', v'⟩ := e
    by_cases h : k' = k
    · simp [updStr, lookupStr, h]
    · simp [updStr, lookupStr, h, ih]

theorem lookup_updStr_other {α : Type} : ∀ (m : List (String × α)) (k : String) (v : α)
    (k2 : String), k2 ≠ k → lookupStr (updStr m k v) k2 = lookupStr m k2 := by
  intro m
  induction m with
  | nil =>
    intro k v k2 h
    simp only [updStr, lookupStr]
    rw [if_neg (fun hh => h hh.symm)]
  | cons e t ih =>
    intro k v k2 h
    obtain ⟨k', v'⟩ := e
    simp only [updStr]
    by_cases h1 : k' = k
    · subst h1
      rw [if_pos rfl]
      simp only [lookupStr]
      rw [if_neg (fun hh => h hh.symm), if_neg (fun hh => h hh.symm)]
    · rw [if_neg h1]
      simp only [lookupStr]
      by_cases h2 : k' = k2
      · rw [if_pos h2, if_pos h2]
      · rw [if_neg h2, if_neg h2]
        exact ih k v k2 h

theorem foldl_applyMatch_inv : ∀ (ms : List (List Char × Option (List Char)))
    (st : ExtractState) (name : String), ms ≠ [] →
    lookupStr (ms.foldl (fun s m => applyMatch s name m) st).inMap name =
      some (ms.foldl (fun s m => applyMatch s name m) st).lastInput := by
  intro ms
  induction ms with
  | nil => intro st name h; exact absurd rfl h
  | cons m rest ih =>
    intro st name h
    cases rest with
    | nil =>
      simp only [List.foldl]
      simp [applyMatch, lookup_updStr_self]
    | cons m2 rest2 =>
      simp only [List.foldl]
      exact ih (applyMatch st name m) name (by simp)

theorem foldl_extractStep_nil : ∀ (ds : List GoFuncDecl) (st : ExtractState),
    (∀ d ∈ ds, commentMatches d = []) → ds.foldl extractStep st = st := by
  intro ds
  induction ds with
  | nil => intro st h; rfl
  | cons d t ih =>
    intro st h
    have hd : commentMatches d = [] := h d (by simp)
    have hstep : extractStep st d = st := by
      unfold extractStep
      rw [hd]
      rfl
    simp only [List.foldl, hstep]
    exact ih st (fun d' hd' => h d' (by simp [hd']))

theorem extractSamples_last_stored (pre1 : List GoFuncDecl) (e : GoFuncDecl)
    (pre2 : List GoFuncDecl) (he : commentMatches e ≠ [])
    (h2 : ∀ e2 ∈ pre2, commentMatches e2 = []) :
    lookupStr (extractSamples (pre1 ++ e :: pre2)).inMap e.name =
      some (extractSamples (pre1 ++ e :: pre2)).lastInput := by
  have h1 : extractSamples (pre1 ++ e :: pre2) =
      pre2.foldl extractStep (extractStep (extractSamples pre1) e) := by
    unfold extractSamples
    rw [List.foldl_append]
    rfl
  rw [h1, foldl_extractStep_nil pre2 _ h2]
  unfold extractStep
  exact foldl_applyMatch_inv (commentMatches e) (extractSamples pre1) e.name he

theorem startsWith_append_self : ∀ (pat rest : List Char),
    startsWith pat (pat ++ rest) = true := by
  intro pat
  induction pat with
  | nil => intro rest; rfl
  | cons a as ih => intro rest; simp [startsWith, ih]

theorem takeWhile_notNL : ∀ (W I : List Char), '\n' ∉ W →
    (W ++ '\n' :: I).takeWhile (fun c => !(c = '\n' : Bool)) = W := by
  intro W
  induction W with
  | nil => intro I h; simp [List.takeWhile_cons]
  | cons c W' ih =>
    intro I h
    have hc : ¬(c = '\n') := fun hh => h (by simp [hh])
    have hW' : '\n' ∉ W' := fun hh => h (by simp [hh])
    simp [List.takeWhile_cons, hc, ih I hW']

theorem dropWhile_notNL : ∀ (W I : List Char), '\n' ∉ W →
    (W ++ '\n' :: I).dropWhile (fun c => !(c = '\n' : Bool)) = '\n' :: I := by
  intro W
  induction W with
  | nil => intro I h; simp [List.dropWhile_cons]
  | cons c W' ih =>
    intro I h
    have hc : ¬(c = '\n') := fun hh => h (by simp [hh])
    have hW' : '\n' ∉ W' := fun hh => h (by simp [hh])
    simp [List.dropWhile_cons, hc, ih I hW']

theorem trimMarkers_mkBlock (W I : List Char) :
    trimMarkers (mkBlockComment W I) =
      '\n' :: (['w', 'a', 'n', 't', '='] ++ W ++ '\n' :: I) := by
  have hbody : mkBlockComment W I =
      '/' :: '*' :: (('\n' :: (['w', 'a', 'n', 't', '='] ++ W ++ '\n' :: I)) ++ ['*', '/']) := by
    simp [mkBlockComment]
  rw [hbody]
  unfold trimMarkers
  have h1 : startsWith ['/', '/']
      ('/' :: '*' :: (('\n' :: (['w', 'a', 'n', 't', '='] ++ W ++ '\n' :: I)) ++ ['*', '/'])) =
      false := by
    simp [startsWith]
  rw [trimPre, h1]
  simp only [Bool.false_eq_true, if_false]
  have h2 : startsWith ['/', '*']
      ('/' :: '*' :: (('\n' :: (['w', 'a', 'n', 't', '='] ++ W ++ '\n' :: I)) ++ ['*', '/'])) =
      true := by
    simp [startsWith]
  rw [h2]
  simp only [if_true, List.drop_succ_cons, List.drop_zero]
  unfold trimSuf
  rw [List.reverse_append]
  have h3 : startsWith (['*', '/'] : List Char).reverse
      ((['*', '/'] : List Char).reverse ++
        ('\n' :: (['w', 'a', 'n', 't', '='] ++ W ++ '\n' :: I)).reverse) = true :=
    startsWith_append_self _ _
  rw [if_pos h3]
  rw [List.drop_append_of_le_length (by simp)]
  simp

theorem findWant_body (W I : List Char) :
    findWant ('\n' :: (['w', 'a', 'n', 't', '='] ++ W ++ '\n' :: I)) =
      some (W ++ '\n' :: I) := by
  have hm : matchAtLineStart ('\n' :: (['w', 'a', 'n', 't', '='] ++ W ++ '\n' :: I)) =
      some (W ++ '\n' :: I) := by
    unfold matchAtLineStart
    have hd : ('\n' :: (['w', 'a', 'n', 't', '='] ++ W ++ '\n' :: I)).dropWhile reWS =
        ['w', 'a', 'n', 't', '='] ++ (W ++ '\n' :: I) := by
      simp [List.dropWhile_cons, reWS]
    rw [hd, if_pos (startsWith_append_self ['w', 'a', 'n', 't', '='] (W ++ '\n' :: I))]
    simp
  unfold findWant
  rw [hm]

theorem parseM2_block (I : List Char) (hlast : I.getLast? = some '\n')
    (hhead : ∀ c, I.head? = some c → reWS c = false) (hlen : 2 ≤ I.length) :
    parseM2 ('\n' :: I) = some I := by
  obtain ⟨c, I', rfl⟩ : ∃ c I', I = c :: I' := by
    cases I with
    | nil => simp at hlen
    | cons c I' => exact ⟨c, I', rfl⟩
  have hc : reWS c = false := hhead c rfl
  have hg : (('\n' :: c :: I').takeWhile reWS).length = 1 := by
    simp [List.takeWhile_cons, hc, show reWS '\n' = true from rfl]
  have hrevhead : (c :: I').reverse.head? = some '\n' := by
    rw [List.head?_reverse]
    exact hlast
  obtain ⟨R, hR⟩ : ∃ R, (c :: I').reverse = '\n' :: R := by
    cases hrev : (c :: I').reverse with
    | nil => simp [hrev] at hrevhead
    | cons a R =>
      rw [hrev] at hrevhead
      simp only [List.head?_cons, Option.some.injEq] at hrevhead
      exact ⟨R, by rw [hrevhead]⟩
  have hRlen : R.length = I'.length := by
    have := congrArg List.length hR
    simp at this
    omega
  have hfullrev : ('\n' :: c :: I').reverse = '\n' :: (R ++ ['\n']) := by
    rw [show ('\n' :: c :: I') = '\n' :: (c :: I') from rfl, List.reverse_cons, hR]
    simp
  have hdw : ('\n' :: c :: I').reverse.dropWhile (fun x => !(x = '\n' : Bool)) =
      '\n' :: (R ++ ['\n']) := by
    rw [hfullrev]
    simp [List.dropWhile_cons]
  have hI1 : 1 ≤ I'.length := by
    simp at hlen
    omega
  unfold parseM2
  rw [if_neg (by simp)]
  simp only [hdw, hg]
  have hL1 : ('\n' :: (R ++ ['\n'])).length = I'.length + 2 := by
    simp [hRlen]
  rw [hL1]
  rw [if_pos (by omega)]
  have hmin : min 1 (I'.length + 2 - 2) = 1 := by
    omega
  rw [hmin]
  rw [show I'.length + 2 = ('\n' :: c :: I').length from by simp, List.take_length]
  simp

theorem wantMatch_block (W I : List Char) (hW : '\n' ∉ W)
    (hlast : I.getLast? = some '\n') (hhead : ∀ c, I.head? = some c → reWS c = false)
    (hlen : 2 ≤ I.length) :
    wantMatch (trimMarkers (mkBlockComment W I)) = some (W, some I) := by
  rw [trimMarkers_mkBlock]
  unfold wantMatch
  rw [findWant_body W I]
  show some ((W ++ '\n' :: I).takeWhile (fun c => !(c = '\n' : Bool)),
    parseM2 ((W ++ '\n' :: I).dropWhile (fun c => !(c = '\n' : Bool)))) = some (W, some I)
  rw [takeWhile_notNL W I hW, dropWhile_notNL W I hW, parseM2_block I hlast hhead hlen]

/-- C1: in `ExtractSamples`, a function whose doc comment matches the
`want=` pattern with no sample-input capture stores as its sample input the
current `lastInput`, which equals the sample input stored for the most
recent earlier matching function in declaration order; and a function whose
doc comment carries both a `want=` value and an inline input block has both
captured verbatim (the exact `W` and `I` substrings of the comment) and
stored under its own name only, all other names' entries unchanged. -/
theorem extractSamples_spec (pre : List GoFuncDecl) (d : GoFuncDecl) :
    (∀ w, commentMatches d = [(w, none)] →
      lookupStr (extractSamples (pre ++ [d])).inMap d.name =
        some (extractSamples pre).lastInput ∧
      (∀ pre1 e pre2, pre = pre1 ++ e :: pre2 → commentMatches e ≠ [] →
        (∀ e2 ∈ pre2, commentMatches e2 = []) →
        lookupStr (extractSamples pre).inMap e.name =
          some (extractSamples pre).lastInput)) ∧
    (∀ W I, d.docs = [mkBlockComment W I] → '\n' ∉ W → I.getLast? = some '\n' →
      (∀ c, I.head? = some c → reWS c = false) → 2 ≤ I.length →
      commentMatches d = [(W, some I)] ∧
      lookupStr (extractSamples (pre ++ [d])).wantMap d.name = some W ∧
      lookupStr (extractSamples (pre ++ [d])).inMap d.name = some I ∧
      (∀ nm, nm ≠ d.name →
        lookupStr (extractSamples (pre ++ [d])).wantMap nm =
          lookupStr (extractSamples pre).wantMap nm ∧
        lookupStr (extractSamples (pre ++ [d])).inMap nm =
          lookupStr (extractSamples pre).inMap nm)) := by
  constructor
  · intro w hm
    constructor
    · rw [extractSamples_append, extractStep_single _ _ _ hm]
      show lookupStr (updStr (extractSamples pre).inMap d.name
        (goOr ((none : Option (List Char)).getD []) (extractSamples pre).lastInput)) d.name = _
      rw [show goOr ((none : Option (List Char)).getD []) (extractSamples pre).lastInput =
        (extractSamples pre).lastInput from by simp [goOr]]
      exact lookup_updStr_self _ _ _
    · intro pre1 e pre2 hpre he h2
      subst hpre
      exact extractSamples_last_stored pre1 e pre2 he h2
  · intro W I hdocs hW hlast hhead hlen
    have hne : I ≠ [] := by
      intro h
      rw [h] at hlen
      simp at hlen
    have hcm : commentMatches d = [(W, some I)] := by
      unfold commentMatches
      rw [hdocs]
      simp [wantMatch_block W I hW hlast hhead hlen]
    have happ : extractSamples (pre ++ [d]) =
        applyMatch (extractSamples pre) d.name (W, some I) := by
      rw [extractSamples_append, extractStep_single _ _ _ hcm]
    have hgo : goOr ((some I).getD []) (extractSamples pre).lastInput = I := by
      simp [goOr, hne]
    refine ⟨hcm, ?_, ?_, ?_⟩
    · rw [happ]
      exact lookup_updStr_self _ _ _
    · rw [happ]
      show lookupStr (updStr (extractSamples pre).inMap d.name
        (goOr ((some I).getD []) (extractSamples pre).lastInput)) d.name = some I
      rw [hgo]
      exact lookup_updStr_self _ _ _
    · intro nm hnm
      rw [happ]
      exact ⟨lookup_updStr_other _ _ _ _ hnm, lookup_updStr_other _ _ _ _ hnm⟩

/-- Witness for C1: `day1` carries `want=42` with inline input `x y`
newline; `day2` carries `//want=7` with no input and inherits day1's
input. -/
theorem extractSamples_spec_witness :
    lookupStr (extractSamples ([⟨"day1", [mkBlockComment ['4', '2'] ['x', ' ', 'y', '\n']]⟩] ++
        [⟨"day2", [['/', '/', 'w', 'a', 'n', 't', '=', '7']]⟩])).inMap "day2" =
      some (extractSamples
        [⟨"day1", [mkBlockComment ['4', '2'] ['x', ' ', 'y', '\n']]⟩]).lastInput ∧
    commentMatches (⟨"day1", [mkBlockComment ['4', '2'] ['x', ' ', 'y', '\n']]⟩ : GoFuncDecl) =
      [(['4', '2'], some ['x', ' ', 'y', '\n'])] ∧
    lookupStr (extractSamples ([] ++
        [⟨"day1", [mkBlockComment ['4', '2'] ['x', ' ', 'y', '\n']]⟩])).wantMap "day1" =
      some ['4', '2'] ∧
    lookupStr (extractSamples ([] ++
        [⟨"day1", [mkBlockComment ['4', '2'] ['x', ' ', 'y', '\n']]⟩])).inMap "day1" =
      some ['x', ' ', 'y', '\n'] ∧
    (extractSamples [⟨"day1", [mkBlockComment ['4', '2'] ['x', ' ', 'y', '\n']]⟩]).lastInput =
      ['x', ' ', 'y', '\n'] := by
  have hB := (extractSamples_spec
    [⟨"day1", [mkBlockComment ['4', '2'] ['x', ' ', 'y', '\n']]⟩]
    ⟨"day2", [['/', '/', 'w', 'a', 'n', 't', '=', '7']]⟩).1 ['7'] (by decide)
  have hA := (extractSamples_spec []
    ⟨"day1", [mkBlockComment ['4', '2'] ['x', ' ', 'y', '\n']]⟩).2 ['4', '2']
    ['x', ' ', 'y', '\n'] rfl (by decide) (by decide)
    (by intro c hc; simp at hc; subst hc; decide) (by decide)
  exact ⟨hB.1, hA.1, hA.2.1, hA.2.2.1, by decide⟩

end Aoc
